import Mathlib

/-!
Verification development for thonny's minipip module
(src/thonny/plugins/micropython/minipip.py).

The Python source is shallowly embedded as executable Lean definitions:
  - version parsing and precedence ordering (modelling the external
    pkg_resources.parse_version / PEP 440 ordering used by the source),
  - the requirement model and constraint satisfaction,
  - metadata fetching with ordered index fallback (the network is a
    parameter mapping URLs to responses),
  - the archive inspector with its two-phase validate-then-write logic
    (the tar archive is a list of entries, the disk an association list),
  - the resolution-engine loop (fuelled, with the environment a parameter),
  - the pip fallback installer (the external process a parameter).
-/

namespace Minipip

/-! ## Version parsing and precedence ordering

The source orders versions with pkg_resources.parse_version (PEP 440).
That library is external to the repository; it is embedded here as a
tokenizer plus a parser for the PEP 440 subset the package index data
uses: epoch, release segments, pre-release (a/b/c/rc/alpha/beta/pre/
preview), post-release (post/rev/r and the implicit dash form), and dev
segments.  Local version labels and wildcard specifiers are outside the
modelled subset. -/

structure PyVersion where
  epoch : Nat
  release : List Nat
  pre : Option (Nat × Nat)
  post : Option Nat
  dev : Option Nat
deriving DecidableEq

inductive VTok where
  | num (n : Nat)
  | word (w : String)
  | sep (c : Char)
deriving DecidableEq

def digitVal (c : Char) : Nat := c.toNat - 48

def tokenizeAux : List Char → List VTok → List VTok
  | [], acc => acc.reverse
  | c :: cs, acc =>
    if c.isDigit then
      match acc with
      | .num n :: accRest => tokenizeAux cs (.num (n * 10 + digitVal c) :: accRest)
      | _ => tokenizeAux cs (.num (digitVal c) :: acc)
    else if c.isAlpha then
      match acc with
      | .word w :: accRest => tokenizeAux cs (.word (w.push c.toLower) :: accRest)
      | _ => tokenizeAux cs (.word (String.singleton c.toLower) :: acc)
    else tokenizeAux cs (.sep c :: acc)

def tokenize (s : String) : List VTok := tokenizeAux s.data []

/-- Collects the leading dot-separated run of numeric tokens (the release
segment of a version string) and returns it with the remaining tokens.
Structural recursion on a fuel argument keeps the definition
kernel-reducible; the fuel is always instantiated with the token count,
which bounds the number of steps. -/
def grabReleaseF : Nat → List VTok → List Nat × List VTok
  | 0, toks => ([], toks)
  | fuel + 1, toks =>
    match toks with
    | .num n :: .sep c :: .num m :: rest =>
      if c = '.' then
        let p := grabReleaseF fuel (.num m :: rest)
        (n :: p.1, p.2)
      else ([n], .sep c :: .num m :: rest)
    | .num n :: rest => ([n], rest)
    | other => ([], other)

def grabRelease (toks : List VTok) : List Nat × List VTok := grabReleaseF toks.length toks

/-- Reads an optional number directly after a suffix tag, allowing one
separator in between, defaulting to 0 (as in PEP 440 normalization). -/
def grabNum : List VTok → Nat × List VTok
  | .num m :: r => (m, r)
  | .sep _ :: .num m :: r => (m, r)
  | toks => (0, toks)

inductive TagKind where
  | preTag (k : Nat)
  | postTag
  | devTag
  | unknown

def classifyWord (w : String) : TagKind :=
  if w == "a" || w == "alpha" then .preTag 0
  else if w == "b" || w == "beta" then .preTag 1
  else if w == "c" || w == "rc" || w == "pre" || w == "preview" then .preTag 2
  else if w == "post" || w == "rev" || w == "r" then .postTag
  else if w == "dev" then .devTag
  else .unknown

/-- Walks the tokens after the release segment, collecting pre-release,
post-release and dev segments; a dash followed by a number is the
implicit post-release form.  Fueled for kernel reducibility; the fuel is
always instantiated with the token count, which bounds the steps. -/
def parseSuffixesF : Nat → List VTok → Option (Nat × Nat) → Option Nat → Option Nat →
    Option (Nat × Nat) × Option Nat × Option Nat
  | 0, _, pre, post, dev => (pre, post, dev)
  | fuel + 1, toks, pre, post, dev =>
    match toks with
    | [] => (pre, post, dev)
    | .sep c :: .num n :: rest =>
      if c = '-' then parseSuffixesF fuel rest pre (post <|> some n) dev
      else parseSuffixesF fuel (.num n :: rest) pre post dev
    | .sep _ :: rest => parseSuffixesF fuel rest pre post dev
    | .word w :: rest =>
      let g := grabNum rest
      match classifyWord w with
      | .preTag k => parseSuffixesF fuel g.2 (pre <|> some (k, g.1)) post dev
      | .postTag => parseSuffixesF fuel g.2 pre (post <|> some g.1) dev
      | .devTag => parseSuffixesF fuel g.2 pre post (dev <|> some g.1)
      | .unknown => parseSuffixesF fuel g.2 pre post dev
    | .num _ :: rest => parseSuffixesF fuel rest pre post dev

def parseSuffixes (toks : List VTok) : Option (Nat × Nat) × Option Nat × Option Nat :=
  parseSuffixesF toks.length toks none none none

/-- Embedding of pkg_resources.parse_version on the PEP 440 subset
described above. -/
def parseVersion (s : String) : PyVersion :=
  let toks0 := tokenize s
  let toks1 := match toks0 with
    | .word "v" :: rest => rest
    | _ => toks0
  let ep : Nat × List VTok := match toks1 with
    | .num e :: .sep '!' :: rest => (e, rest)
    | _ => (0, toks1)
  let rel := grabRelease ep.2
  let sfx := parseSuffixes rel.2
  { epoch := ep.1, release := rel.1, pre := sfx.1, post := sfx.2.1, dev := sfx.2.2 }

def trimZeros (l : List Nat) : List Nat := (l.reverse.dropWhile (· == 0)).reverse

/-- Comparison key type: lexicographic order over epoch, trimmed release
segments, then the pre/post/dev encodings, exactly as packaging orders
its _cmpkey. -/
abbrev VerKey := ℕ ×ₗ ((List ℕ) ×ₗ (ℤ ×ₗ (ℤ ×ₗ (ℤ ×ₗ (ℤ ×ₗ (ℤ ×ₗ ℤ))))))

/-- The ordering key of a parsed version: a dev release with no pre/post
segment sorts below every pre-release (encoded -2), absence of a
pre-release otherwise sorts above every pre-release letter (encoded 10);
a post-release sorts above its base (encoded 1 vs -1); a dev segment
sorts below the same version without one (encoded 0 vs 10). -/
def verKey (v : PyVersion) : VerKey :=
  let preK : ℤ × ℤ :=
    match v.pre, v.post, v.dev with
    | none, none, some _ => (-2, 0)
    | none, _, _ => (10, 0)
    | some (k, n), _, _ => ((k : ℤ), (n : ℤ))
  let postK : ℤ × ℤ := match v.post with
    | none => (-1, 0)
    | some n => (1, (n : ℤ))
  let devK : ℤ × ℤ := match v.dev with
    | none => (10, 0)
    | some n => (0, (n : ℤ))
  toLex (v.epoch, toLex (trimZeros v.release,
    toLex (preK.1, toLex (preK.2, toLex (postK.1, toLex (postK.2, toLex (devK.1, devK.2)))))))

def verKeyStr (s : String) : VerKey := verKey (parseVersion s)

/-! ## Requirements and index metadata

pkg_resources.Requirement is a project name plus constraint clauses
(operator and version).  Containment of a version string in a
requirement (the source's `ver in req`) is conjunction over the clauses
with pre-releases permitted, each clause compared under the
parse_version ordering; the exclusive comparisons carry PEP 440's
refinements — a clause >V does not admit a post-release of V's own base
version, and a clause <V does not admit a pre-release of V's own base
version — as packaging implements them.  The modelled operators are the
six comparison operators (arbitrary-equality and compatible-release
clauses are outside the modelled subset). -/

inductive ConstraintOp where
  | lt
  | le
  | eq
  | ne
  | ge
  | gt
deriving DecidableEq

structure Requirement where
  projectName : String
  specs : List (ConstraintOp × String)

/-- A pre-release in packaging's sense (is_prerelease): carries a
pre-release or dev segment. -/
def isPre (v : PyVersion) : Bool := v.pre.isSome || v.dev.isSome

/-- A post-release in packaging's sense (is_postrelease). -/
def isPost (v : PyVersion) : Bool := v.post.isSome

/-- Equality of base versions (epoch plus release only, trailing zeros
insignificant), packaging's base_version comparison. -/
def sameBase (a b : PyVersion) : Bool :=
  a.epoch == b.epoch && trimZeros a.release == trimZeros b.release

def clauseSat (ver : String) (c : ConstraintOp × String) : Bool :=
  let pv := parseVersion ver
  let pc := parseVersion c.2
  let kv := verKey pv
  let kc := verKey pc
  match c.1 with
  | .lt => decide (kv < kc) && !(!isPre pc && isPre pv && sameBase pv pc)
  | .le => decide (kv ≤ kc)
  | .eq => kv == kc
  | .ne => kv != kc
  | .ge => decide (kc ≤ kv)
  | .gt => decide (kc < kv) && !(!isPost pc && isPost pv && sameBase pv pc)

/-- The source's `ver in req` (pkg_resources Requirement containment). -/
def reqContains (req : Requirement) (ver : String) : Bool :=
  req.specs.all (clauseSat ver)

structure Asset where
  url : String
deriving DecidableEq

/-- An index metadata document: `info.version` plus the `releases`
mapping, kept as an association list in the document's own (insertion)
order, as Python dict iteration preserves it. -/
structure Meta where
  infoVersion : String
  releases : List (String × List Asset)
deriving DecidableEq

def lookupAssets : List (String × List Asset) → String → Option (List Asset)
  | [], _ => none
  | (v, assets) :: rest, q => if v = q then some assets else lookupAssets rest q

/-! ## Version Resolver (_resolve_version, minipip.py lines 249-258) -/

/-- The version keys collected by _resolve_version's loop: in document
order, those satisfying the requirement whose release-asset list is
non-empty. -/
def matchingVersions (req : Requirement) (meta : Meta) : List String :=
  ((meta.releases.filter (fun p => reqContains req p.1 && !p.2.isEmpty)).map Prod.fst)

/-- The element `sorted(xs, key=parse_version)[-1]` picks: a running
maximum that is replaced whenever a later element compares
greater-or-equal (stable sort keeps the last of equal keys last). -/
def maxLast (acc : String) : List String → String
  | [] => acc
  | v :: rest => maxLast (if verKeyStr acc ≤ verKeyStr v then v else acc) rest

/-- Embedding of _resolve_version. -/
def resolveVersion (req : Requirement) (meta : Meta) : Option String :=
  match matchingVersions req meta with
  | [] => none
  | v :: rest => some (maxLast v rest)

/-! ## Metadata Client (_fetch_metadata, minipip.py lines 195-232)

The network is a parameter mapping a URL to a response: a parsed JSON
document, an HTTP 404, or any other HTTP/transport failure.  The
source's local `ver_specs` variable (reassigned to pin the current
version when the requirement has no constraints) is never read after its
assignment — _resolve_version receives `req`, not `ver_specs` — so it
has no counterpart here. -/

inductive Resp where
  | ok (m : Meta)
  | notFound
  | failure

def jsonUrl (indexUrl name : String) : String := indexUrl ++ "/" ++ name ++ "/json"

def verJsonUrl (indexUrl name ver : String) : String :=
  indexUrl ++ "/" ++ name ++ "/" ++ ver ++ "/json"

inductive FetchAux where
  | found (m : Meta)
  | transport
  | exhausted
deriving DecidableEq

/-- The loop body of _fetch_metadata over the remaining index URLs: a
404 on either fetch of an index moves on to the next index, any other
failure aborts, a resolved version equal to the document's current
version returns the main document, otherwise the version-specific
document is fetched and returned. -/
def fetchMetadataAux (net : String → Resp) (req : Requirement) : List String → FetchAux
  | [] => .exhausted
  | indexUrl :: rest =>
    match net (jsonUrl indexUrl req.projectName) with
    | .failure => .transport
    | .notFound => fetchMetadataAux net req rest
    | .ok mainMeta =>
      match resolveVersion req mainMeta with
      | none => fetchMetadataAux net req rest
      | some ver =>
        if ver = mainMeta.infoVersion then .found mainMeta
        else
          match net (verJsonUrl indexUrl req.projectName ver) with
          | .ok m2 => .found m2
          | .notFound => fetchMetadataAux net req rest
          | .failure => .transport

inductive FetchOutcome where
  | found (m : Meta)
  | transport
  | userError (projectName : String) (indexUrls : List String)
deriving DecidableEq

/-- Embedding of _fetch_metadata: when every index is exhausted without
a match, the raised UserError names the project and the full index URL
list (here carried structurally rather than as the formatted string). -/
def fetchMetadata (net : String → Resp) (req : Requirement) (indexUrls : List String) :
    FetchOutcome :=
  match fetchMetadataAux net req indexUrls with
  | .found m => .found m
  | .transport => .transport
  | .exhausted => .userError req.projectName indexUrls

/-- One index yields no match for the requirement: the main fetch 404s,
or resolution finds no suitable version, or the resolved version's
second fetch 404s. -/
def noMatchAt (net : String → Resp) (req : Requirement) (indexUrl : String) : Prop :=
  net (jsonUrl indexUrl req.projectName) = .notFound
  ∨ (∃ m, net (jsonUrl indexUrl req.projectName) = .ok m ∧ resolveVersion req m = none)
  ∨ (∃ m v, net (jsonUrl indexUrl req.projectName) = .ok m ∧ resolveVersion req m = some v
      ∧ v ≠ m.infoVersion ∧ net (verJsonUrl indexUrl req.projectName v) = .notFound)

/-! ## Archive Inspector (_install_single_upip_compatible_from_url,
minipip.py lines 105-156)

A downloaded tar archive is a list of entries; an entry is a directory
or a file whose byte content is kept as its list of text lines (the
granularity at which the source reads requires.txt).  The staged content
mapping and the disk are association lists from destination path to
either a directory marker or file data; insertion follows Python dict
semantics (an existing key keeps its position, its value is replaced). -/

/-- Boolean substring test on character lists (the Python `in` operator
on str). -/
def infixB (sub : List Char) : List Char → Bool
  | [] => sub.isEmpty
  | c :: rest => sub.isPrefixOf (c :: rest) || infixB sub rest

def containsStr (s sub : String) : Bool := infixB sub.data s.data

/-- str.endswith, computed on the character lists (kernel-reducible,
unlike String.endsWith's byte-position implementation). -/
def strEndsWith (s sfx : String) : Bool := sfx.data.isSuffixOf s.data

/-- str.startswith, computed on the character lists. -/
def strStartsWith (s pfx : String) : Bool := pfx.data.isPrefixOf s.data

/-- str.strip: drop whitespace from both ends. -/
def strTrim (s : String) : String :=
  String.mk (((s.data.dropWhile Char.isWhitespace).reverse.dropWhile Char.isWhitespace).reverse)

/-- A directory marker (`none`) or file data (`some lines`). -/
abbrev FileData := Option (List String)

abbrev ContentMap := List (String × FileData)

structure TarEntry where
  name : String
  content : FileData
deriving DecidableEq

/-- The part of an entry name after the first slash, or the empty string
when the name has no slash — the source's
`info.name.split("/", maxsplit=1)` second component. -/
def relNameChars : List Char → List Char
  | [] => []
  | c :: rest => if c = '/' then rest else relNameChars rest

def relName (name : String) : String := String.mk (relNameChars name.data)

/-- os.path.join for this module's uses: a rooted second component
replaces the first, an empty second component leaves a trailing
separator. -/
def osJoin (target rel : String) : String :=
  if strStartsWith rel "/" then rel
  else if rel = "" then target ++ "/"
  else target ++ "/" ++ rel

/-- The requires.txt line filter: strip each line, keep it when
non-empty and not a comment. -/
def parseReqLines (lines : List String) : List String :=
  (lines.map strTrim).filter (fun l => !l.data.isEmpty && !strStartsWith l "#")

/-- Python dict assignment on an association list: replace in place when
the key exists, append otherwise. -/
def insertContent : ContentMap → String → FileData → ContentMap
  | [], k, v => [(k, v)]
  | p :: rest, k, v => if p.1 = k then (k, v) :: rest else p :: insertContent rest k v

/-- How a scan of the archive can abort: the NotUpipCompatible signal
on a top-level setup.py, or the TypeError the source raises at line 131
when a directory entry is routed to the requires.txt parse —
tar.extractfile returns None for a non-regular-file member and the
for-loop over None raises.  The TypeError is not caught anywhere in the
module, so it aborts the whole install rather than triggering the pip
fallback. -/
inductive ScanErr where
  | notUpipCompatible
  | typeError
deriving DecidableEq

/-- The inspection loop over the archive's entries, with the staged
content mapping and dependency list as accumulators. -/
def scanArchive (targetDir : String) : List TarEntry → ContentMap → List String →
    Except ScanErr (ContentMap × List String)
  | [], content, deps => .ok (content, deps)
  | e :: rest, content, deps =>
    let rel := relName e.name
    if rel = "setup.py" then .error .notUpipCompatible
    else if containsStr rel ".egg-info/PKG-INFO" then scanArchive targetDir rest content deps
    else if containsStr rel ".egg-info/requires.txt" then
      match e.content with
      | some lines => scanArchive targetDir rest content (deps ++ parseReqLines lines)
      | none => .error .typeError
    else if containsStr rel ".egg-info" then scanArchive targetDir rest content deps
    else
      scanArchive targetDir rest (insertContent content (osJoin targetDir rel) e.content) deps

/-- Embedding of _install_single_upip_compatible_from_url's
validate-then-stage phase: the archive (already fully downloaded) is
walked and either aborted or turned into the staged content plus the
collected dependency specs.  The project name parameter of the source
only feeds logging and is omitted. -/
def installFromArchive (targetDir : String) (entries : List TarEntry) :
    Except ScanErr (ContentMap × List String) :=
  scanArchive targetDir entries [] []

abbrev Disk := ContentMap

/-- One write of the commit phase: os.makedirs for a directory marker,
open(path, "wb") for file data; either way the path now holds the staged
value.  (Implicit creation of parent directories is not tracked.) -/
def writeEntry (d : Disk) (k : String) (v : FileData) : Disk := insertContent d k v

/-- The disk after the whole call: unchanged when the archive was
rejected, otherwise the staged content committed in order. -/
def diskAfter (d : Disk) (targetDir : String) (entries : List TarEntry) : Disk :=
  match installFromArchive targetDir entries with
  | .error _ => d
  | .ok (content, _) => content.foldl (fun acc p => writeEntry acc p.1 p.2) d

def lookupPath : List (String × FileData) → String → Option FileData
  | [], _ => none
  | (k, v) :: rest, q => if k = q then some v else lookupPath rest q

/-- The entries the scan treats as requires.txt files (reaching the
requires branch: not the setup.py rejection, not the PKG-INFO skip). -/
def hitsRequires (e : TarEntry) : Bool :=
  (relName e.name != "setup.py")
    && !containsStr (relName e.name) ".egg-info/PKG-INFO"
    && containsStr (relName e.name) ".egg-info/requires.txt"

/-- The dependency list the claim describes: the filtered lines of the
archive's requires.txt entries, concatenated in entry order. -/
def expDeps (entries : List TarEntry) : List String :=
  entries.foldr (fun e acc => (if hitsRequires e then parseReqLines (e.content.getD []) else []) ++ acc) []

/-- The entries on which the scan raises TypeError: routed to the
requires.txt branch but directories, so tar.extractfile yields no file
object to iterate. -/
def crashesRequires (e : TarEntry) : Bool :=
  (relName e.name != "setup.py")
    && !containsStr (relName e.name) ".egg-info/PKG-INFO"
    && containsStr (relName e.name) ".egg-info/requires.txt"
    && e.content.isNone

/-- The entries the scan stages for writing: everything that is neither
the setup.py rejection nor under an .egg-info path. -/
def writesEntry (e : TarEntry) : Bool :=
  (relName e.name != "setup.py") && !containsStr (relName e.name) ".egg-info"

def destOf (target : String) (e : TarEntry) : String := osJoin target (relName e.name)

/-! ## Resolution Engine (_install_all_upip_compatible, minipip.py lines 60-102)

The engine's environment is a parameter: `fetch` gives the metadata
document _fetch_metadata returns for a spec (`none` when the fetch
raises and the install aborts), and `inspect` gives the archive
inspector's outcome for an asset URL (`none` is the NotUpipCompatible
signal, `some deps` a successful extraction with the returned dependency
specs).  The target directory and index URLs are fixed for one call and
absorbed into the environment.  The loop is fuelled because discovered
dependency specs may grow the queue without bound; claims about final
states hold for runs the fuel completes.  The state additionally records
the trace of specs for which the inspector was invoked. -/

structure EngineEnv where
  fetch : String → Option Meta
  inspect : String → Option (List String)

structure EngineState where
  queue : List String
  installed : List String
  pipSpecs : List String
  inspected : List String
deriving DecidableEq

/-- The dependency enqueue loop: each dep is appended unless already
installed or already pending (membership checked against the queue as it
grows). -/
def enqueueDeps (installed : List String) : List String → List String → List String
  | q, [] => q
  | q, d :: ds => enqueueDeps installed (if d ∈ installed ∨ d ∈ q then q else q ++ [d]) ds

inductive StepOut where
  | done (s : EngineState)
  | next (s : EngineState)
  | crash
deriving DecidableEq

/-- One iteration of the engine's while loop.  `done` is loop exit on an
empty queue, `crash` an exception from the metadata fetch or a missing
version key in the releases mapping. -/
def engineStep (env : EngineEnv) (s : EngineState) : StepOut :=
  match s.queue with
  | [] => .done s
  | spec :: rest =>
    if spec ∈ s.installed ∨ spec ∈ s.pipSpecs then .next { s with queue := rest }
    else
      match env.fetch spec with
      | none => .crash
      | some meta =>
        match lookupAssets meta.releases meta.infoVersion with
        | none => .crash
        | some assets =>
          match assets with
          | [a] =>
            if strEndsWith a.url ".tar.gz" then
              match env.inspect a.url with
              | none =>
                .next { s with queue := rest, pipSpecs := s.pipSpecs ++ [spec],
                               inspected := s.inspected ++ [spec] }
              | some deps =>
                let installed1 := if spec ∈ s.installed then s.installed else s.installed ++ [spec]
                .next { queue := enqueueDeps installed1 rest deps,
                        installed := installed1,
                        pipSpecs := s.pipSpecs,
                        inspected := s.inspected ++ [spec] }
            else .next { s with queue := rest, pipSpecs := s.pipSpecs ++ [spec] }
          | _ => .next { s with queue := rest, pipSpecs := s.pipSpecs ++ [spec] }

inductive RunOut where
  | finished (s : EngineState)
  | crashed (s : EngineState)
  | fuelOut (s : EngineState)
deriving DecidableEq

def RunOut.state : RunOut → EngineState
  | .finished s => s
  | .crashed s => s
  | .fuelOut s => s

def engineRun (env : EngineEnv) : Nat → EngineState → RunOut
  | 0, s => .fuelOut s
  | fuel + 1, s =>
    match engineStep env s with
    | .done s1 => .finished s1
    | .crash => .crashed s
    | .next s1 => engineRun env fuel s1

/-- Embedding of _install_all_upip_compatible: run the loop from the
caller's specs with empty installed/pip/trace state. -/
def installAllUpipCompatible (env : EngineEnv) (fuel : Nat) (specs : List String) : RunOut :=
  engineRun env fuel ⟨specs, [], [], []⟩

/-- The single-asset plain-tarball test of minipip.py line 81: exactly
one asset whose URL ends in ".tar.gz". -/
def goodAssets : List Asset → Bool
  | [a] => strEndsWith a.url ".tar.gz"
  | _ => false

/-- A spec whose fetched metadata passes the single-tarball test. -/
def goodSpec (env : EngineEnv) (spec : String) : Prop :=
  ∃ meta assets, env.fetch spec = some meta
    ∧ lookupAssets meta.releases meta.infoVersion = some assets
    ∧ goodAssets assets = true

/-! ## Fallback Installer (_install_with_pip, minipip.py lines 159-192)

The external pip process is a parameter: whether it succeeds, and what
os.listdir of the target directory shows after it ran. -/

def MP_ORG_INDEX : String := "https://micropython.org/pi"

def DEFAULT_INDEX_URLS : List String := [MP_ORG_INDEX, "https://pypi.org/pypi"]

def suitableIndexes (indexUrls : List String) : List String :=
  indexUrls.filter (fun u => u != MP_ORG_INDEX)

def pipBaseArgs (targetDir : String) : List String :=
  ["--no-input", "--no-color", "--disable-pip-version-check", "install", "--upgrade",
   "--target", targetDir]

/-- The index arguments built by the pop loop: the first suitable index
as --index-url, every further one as --extra-index-url. -/
def indexArgs : List String → List String
  | [] => []
  | u :: rest => "--index-url" :: u :: rest.foldr (fun v acc => "--extra-index-url" :: v :: acc) []

structure PipWorld where
  runOk : Bool
  dirAfterRun : List String

inductive PipResult where
  | userError (msg : String)
  | processError
  | ok (args : List String) (finalDir : List String)
deriving DecidableEq

/-- Embedding of _install_with_pip.  On success the result records the
argument list handed to the external process and the target directory
listing after the trailing .dist-info cleanup pass. -/
def installWithPip (w : PipWorld) (specs : List String) (targetDir : String)
    (indexUrls : List String) : PipResult :=
  let suitable := suitableIndexes indexUrls
  if suitable.isEmpty then .userError "No suitable indexes for pip"
  else if !w.runOk then .processError
  else
    .ok (pipBaseArgs targetDir ++ indexArgs suitable ++ specs)
      (w.dirAfterRun.filter (fun n => !strEndsWith n ".dist-info"))

/-! ## Public entry point (install, minipip.py lines 33-57) -/

inductive InstallOutcome where
  | crashed
  | ranOutOfFuel
  | finished (installed pipSpecs : List String) (pipPhase : Option PipResult)
deriving DecidableEq

/-- Embedding of install: normalize a bare string spec to a singleton
list, default the target directory to the working directory and the
index URLs to DEFAULT_INDEX_URLS (Python falsiness: None or empty also
default), run the engine, then the pip phase only when the engine left
fallback specs. -/
def install (env : EngineEnv) (pw : PipWorld) (fuel : Nat) (cwd : String)
    (spec : String ⊕ List String) (installDir : Option String)
    (indexUrls : Option (List String)) : InstallOutcome :=
  let specs := match spec with
    | .inl s => [s]
    | .inr l => l
  let dir := match installDir with
    | none => cwd
    | some d => if d = "" then cwd else d
  let urls := match indexUrls with
    | none => DEFAULT_INDEX_URLS
    | some us => if us.isEmpty then DEFAULT_INDEX_URLS else us
  match installAllUpipCompatible env fuel specs with
  | .crashed _ => .crashed
  | .fuelOut _ => .ranOutOfFuel
  | .finished st =>
    if st.pipSpecs.isEmpty then .finished st.installed st.pipSpecs none
    else .finished st.installed st.pipSpecs (some (installWithPip pw st.pipSpecs dir urls))

/-! ## Concrete instances used by the claims -/

/-- The requirement pkg>=1.0 of the resolver example. -/
def reqC4 : Requirement := ⟨"pkg", [(.ge, "1.0")]⟩

/-- A metadata document with versions 0.9, 1.0, 1.2 and 2.0-beta where
only 1.0 and 1.2 have a non-empty release list. -/
def metaC4 : Meta :=
  ⟨"1.0", [("0.9", []), ("1.0", [⟨"https://host/pkg-1.0.tar.gz"⟩]),
           ("1.2", [⟨"https://host/pkg-1.2.tar.gz"⟩]), ("2.0-beta", [])]⟩

/-- A requirement with no version constraint clauses. -/
def reqPlain : Requirement := ⟨"pkg", []⟩

/-- Index document whose current version 1.0 is not the highest released
version. -/
def metaMainC2 : Meta :=
  ⟨"1.0", [("1.0", [⟨"https://host/pkg-1.0.tar.gz"⟩]),
           ("2.0", [⟨"https://host/pkg-2.0.tar.gz"⟩])]⟩

/-- The version-specific document for 2.0. -/
def metaV2C2 : Meta := ⟨"2.0", [("2.0", [⟨"https://host/pkg-2.0.tar.gz"⟩])]⟩

/-- A network where the index reports metaMainC2 as the main document
for pkg and serves the 2.0-specific document on the second fetch. -/
def netC2 : String → Resp := fun u =>
  if u = jsonUrl "https://idx" "pkg" then .ok metaMainC2
  else if u = verJsonUrl "https://idx" "pkg" "2.0" then .ok metaV2C2
  else .failure

/-- A network where index idx1 404s and idx2 serves pkg. -/
def netC5 : String → Resp := fun u =>
  if u = jsonUrl "idx1" "pkg" then .notFound
  else if u = jsonUrl "idx2" "pkg" then .ok metaV2C2
  else .failure

/-- An engine environment where installing a discovers dependency b via
requires.txt and b itself installs cleanly. -/
def envC6 : EngineEnv := {
  fetch := fun s =>
    if s = "a" then some ⟨"1.0", [("1.0", [⟨"a.tar.gz"⟩])]⟩
    else if s = "b" then some ⟨"1.0", [("1.0", [⟨"b.tar.gz"⟩])]⟩
    else none
  inspect := fun u =>
    if u = "a.tar.gz" then some ["b"]
    else if u = "b.tar.gz" then some []
    else none }

/-- An engine environment where spec c resolves to a release with two
assets. -/
def envC7 : EngineEnv := {
  fetch := fun s =>
    if s = "c" then some ⟨"1.0", [("1.0", [⟨"c1.tar.gz"⟩, ⟨"c2.tar.gz"⟩])]⟩
    else none
  inspect := fun _ => none }

/-- An archive whose setup.py sits in a subdirectory of the distribution
root (root-relative path sub/setup.py, not setup.py). -/
def cexC1 : List TarEntry :=
  [⟨"pkg", none⟩, ⟨"pkg/sub/setup.py", some ["import setuptools"]⟩]

/-- An archive with a top-level setup.py as its last entry, after other
entries. -/
def witC1 : List TarEntry :=
  [⟨"pkg", none⟩, ⟨"pkg/mod.py", some ["code"]⟩, ⟨"pkg/setup.py", some ["from setuptools import setup"]⟩]

/-- An archive in which two entries from different distribution roots
share the root-relative path data.txt with different contents. -/
def cexC3 : List TarEntry :=
  [⟨"pkg/data.txt", some ["X"]⟩, ⟨"pkg2/data.txt", some ["Y"]⟩]

/-- A well-formed archive without setup.py, with a requires.txt. -/
def witC3 : List TarEntry :=
  [⟨"pkg", none⟩, ⟨"pkg/mod.py", some ["code"]⟩,
   ⟨"pkg/pkg.egg-info/requires.txt", some ["depA", "", "# note", "depB"]⟩]

/-! ## Helper lemmas: the running maximum of _resolve_version -/

theorem maxLast_mem (l : List String) : ∀ acc, maxLast acc l ∈ acc :: l := by
  induction l with
  | nil => intro acc; simp [maxLast]
  | cons v rest ih =>
    intro acc
    have h := ih (if verKeyStr acc ≤ verKeyStr v then v else acc)
    rw [maxLast]
    rcases List.mem_cons.mp h with h1 | h1
    · rw [h1]
      split
      · exact List.mem_cons_of_mem _ (List.mem_cons_self _ _)
      · exact List.mem_cons_self _ _
    · exact List.mem_cons_of_mem _ (List.mem_cons_of_mem _ h1)

theorem maxLast_ge (l : List String) :
    ∀ acc x, x ∈ acc :: l → verKeyStr x ≤ verKeyStr (maxLast acc l) := by
  induction l with
  | nil =>
    intro acc x hx
    simp at hx
    simp [maxLast, hx]
  | cons v rest ih =>
    intro acc x hx
    set m := if verKeyStr acc ≤ verKeyStr v then v else acc with hm
    have hmm : verKeyStr m ≤ verKeyStr (maxLast m rest) := ih m m (List.mem_cons_self m rest)
    have hstep : maxLast acc (v :: rest) = maxLast m rest := by rw [maxLast]
    rw [hstep]
    rcases List.mem_cons.mp hx with h1 | h1
    · subst h1
      have hxm : verKeyStr x ≤ verKeyStr m := by
        rw [hm]
        rcases le_or_lt (verKeyStr x) (verKeyStr v) with hle | hlt
        · rw [if_pos hle]; exact hle
        · rw [if_neg (not_le_of_lt hlt)]
      exact le_trans hxm hmm
    rcases List.mem_cons.mp h1 with h2 | h2
    · subst h2
      have hxm : verKeyStr x ≤ verKeyStr m := by
        rw [hm]
        rcases le_or_lt (verKeyStr acc) (verKeyStr x) with hle | hlt
        · rw [if_pos hle]
        · rw [if_neg (not_le_of_lt hlt)]; exact le_of_lt hlt
      exact le_trans hxm hmm
    · exact ih m x (List.mem_cons_of_mem m h2)

/-! ## Helper lemmas: substring containment -/

theorem infixB_iff (sub : List Char) :
    ∀ l, infixB sub l = true ↔ sub <:+: l := by
  intro l
  induction l with
  | nil =>
    rw [infixB, List.isEmpty_iff]
    constructor
    · intro h; simp [h]
    · intro h; exact List.eq_nil_of_infix_nil h
  | cons c rest ih =>
    rw [infixB, Bool.or_eq_true, List.isPrefixOf_iff_prefix, ih, List.infix_cons_iff]

theorem contains_mono (s sub1 sub2 : String) (hsub : infixB sub1.data sub2.data = true)
    (h : containsStr s sub2 = true) : containsStr s sub1 = true := by
  rw [containsStr, infixB_iff] at h ⊢
  exact List.IsInfix.trans ((infixB_iff sub1.data sub2.data).mp hsub) h

theorem contains_eggInfo_of_pkgInfo (s : String)
    (h : containsStr s ".egg-info/PKG-INFO" = true) : containsStr s ".egg-info" = true :=
  contains_mono s ".egg-info" ".egg-info/PKG-INFO" (by decide) h

theorem contains_eggInfo_of_requires (s : String)
    (h : containsStr s ".egg-info/requires.txt" = true) : containsStr s ".egg-info" = true :=
  contains_mono s ".egg-info" ".egg-info/requires.txt" (by decide) h

/-! ## Helper lemmas: association-list content maps -/

theorem lookupPath_cons (p : String × FileData) (rest : List (String × FileData)) (q : String) :
    lookupPath (p :: rest) q = if p.1 = q then some p.2 else lookupPath rest q := by
  obtain ⟨a, b⟩ := p
  rfl

theorem lookup_insert_self (m : ContentMap) (k : String) (v : FileData) :
    lookupPath (insertContent m k v) k = some v := by
  induction m with
  | nil => simp [insertContent, lookupPath]
  | cons p rest ih =>
    rw [insertContent]
    by_cases hp : p.1 = k
    · rw [if_pos hp, lookupPath_cons, if_pos rfl]
    · rw [if_neg hp, lookupPath_cons, if_neg hp]
      exact ih

theorem lookup_insert_other (m : ContentMap) (k q : String) (v : FileData) (hne : q ≠ k) :
    lookupPath (insertContent m k v) q = lookupPath m q := by
  induction m with
  | nil =>
    have h1 : ¬ ((k, v).1 = q) := fun h => hne h.symm
    rw [insertContent, lookupPath_cons, if_neg h1]
  | cons p rest ih =>
    rw [insertContent]
    by_cases hp : p.1 = k
    · rw [if_pos hp, lookupPath_cons, lookupPath_cons]
      have h1 : ¬ (k = q) := fun h => hne h.symm
      have h2 : ¬ (p.1 = q) := fun h => hne (by rw [← h, hp])
      simp only [h1, h2, if_false]
    · rw [if_neg hp, lookupPath_cons, lookupPath_cons]
      by_cases hpq : p.1 = q
      · rw [if_pos hpq, if_pos hpq]
      · rw [if_neg hpq, if_neg hpq]
        exact ih

theorem mem_keys_insert (m : ContentMap) (k x : String) (v : FileData) :
    x ∈ (insertContent m k v).map Prod.fst ↔ x ∈ m.map Prod.fst ∨ x = k := by
  induction m with
  | nil => simp [insertContent]
  | cons p rest ih =>
    rw [insertContent]
    by_cases hp : p.1 = k
    · rw [if_pos hp]
      simp only [List.map_cons, List.mem_cons]
      constructor
      · rintro (h | h)
        · exact Or.inr h
        · exact Or.inl (Or.inr h)
      · rintro ((h | h) | h)
        · exact Or.inl (by rw [h, hp])
        · exact Or.inr h
        · exact Or.inl h
    · rw [if_neg hp]
      simp only [List.map_cons, List.mem_cons, ih]
      tauto

theorem insert_keys_nodup (m : ContentMap) (k : String) (v : FileData)
    (h : (m.map Prod.fst).Nodup) : ((insertContent m k v).map Prod.fst).Nodup := by
  induction m with
  | nil => simp [insertContent]
  | cons p rest ih =>
    rw [insertContent]
    rw [List.map_cons, List.nodup_cons] at h
    by_cases hp : p.1 = k
    · rw [if_pos hp]
      rw [List.map_cons, List.nodup_cons]
      exact ⟨by rw [← hp]; exact h.1, h.2⟩
    · rw [if_neg hp]
      rw [List.map_cons, List.nodup_cons]
      refine ⟨?_, ih h.2⟩
      rw [mem_keys_insert]
      rintro (hx | hx)
      · exact h.1 hx
      · exact hp hx

theorem foldl_write_frame (cm : ContentMap) :
    ∀ d k, (∀ p ∈ cm, p.1 ≠ k) →
      lookupPath (cm.foldl (fun acc p => writeEntry acc p.1 p.2) d) k = lookupPath d k := by
  induction cm with
  | nil => intro d k _; rfl
  | cons p rest ih =>
    intro d k hk
    rw [List.foldl_cons]
    rw [ih (writeEntry d p.1 p.2) k (fun q hq => hk q (List.mem_cons_of_mem p hq))]
    exact lookup_insert_other d p.1 k p.2 (fun h => hk p (List.mem_cons_self p rest) h.symm)

theorem foldl_write_lookup (cm : ContentMap) :
    ∀ d k v, (cm.map Prod.fst).Nodup → lookupPath cm k = some v →
      lookupPath (cm.foldl (fun acc p => writeEntry acc p.1 p.2) d) k = some v := by
  induction cm with
  | nil => intro d k v _ h; simp [lookupPath] at h
  | cons p rest ih =>
    intro d k v hnd hl
    rw [List.map_cons, List.nodup_cons] at hnd
    rw [lookupPath_cons] at hl
    rw [List.foldl_cons]
    by_cases hp : p.1 = k
    · rw [if_pos hp] at hl
      have hrest : ∀ q ∈ rest, q.1 ≠ k := by
        intro q hq hqk
        exact hnd.1 (by rw [← hp] at hqk; exact hqk ▸ List.mem_map_of_mem Prod.fst hq)
      rw [foldl_write_frame rest (writeEntry d p.1 p.2) k hrest, writeEntry, hp]
      rw [lookup_insert_self]
      exact hl
    · rw [if_neg hp] at hl
      exact ih (writeEntry d p.1 p.2) k v hnd.2 hl

/-! ## Helper lemmas: the archive scan -/

theorem scanArchive_cons (t : String) (e : TarEntry) (rest : List TarEntry)
    (c : ContentMap) (d : List String) :
    scanArchive t (e :: rest) c d =
      (if relName e.name = "setup.py" then .error .notUpipCompatible
       else if containsStr (relName e.name) ".egg-info/PKG-INFO" = true then
         scanArchive t rest c d
       else if containsStr (relName e.name) ".egg-info/requires.txt" = true then
         (match e.content with
          | some lines => scanArchive t rest c (d ++ parseReqLines lines)
          | none => .error .typeError)
       else if containsStr (relName e.name) ".egg-info" = true then scanArchive t rest c d
       else scanArchive t rest (insertContent c (osJoin t (relName e.name)) e.content) d) :=
  rfl

theorem content_some_of_not_crashes (e : TarEntry)
    (h1 : relName e.name ≠ "setup.py")
    (h2 : containsStr (relName e.name) ".egg-info/PKG-INFO" = false)
    (h3 : containsStr (relName e.name) ".egg-info/requires.txt" = true)
    (hnc : crashesRequires e = false) : ∃ lines, e.content = some lines := by
  cases hc : e.content with
  | some lines => exact ⟨lines, rfl⟩
  | none =>
    rw [crashesRequires] at hnc
    simp [bne_iff_ne, h1, h2, h3, hc] at hnc

theorem writesEntry_branch (e : TarEntry) (hw : writesEntry e = true) :
    relName e.name ≠ "setup.py"
    ∧ containsStr (relName e.name) ".egg-info/PKG-INFO" = false
    ∧ containsStr (relName e.name) ".egg-info/requires.txt" = false
    ∧ containsStr (relName e.name) ".egg-info" = false := by
  rw [writesEntry, Bool.and_eq_true, bne_iff_ne, Bool.not_eq_true'] at hw
  obtain ⟨h1, h4⟩ := hw
  refine ⟨h1, ?_, ?_, h4⟩
  · cases h2 : containsStr (relName e.name) ".egg-info/PKG-INFO" with
    | false => rfl
    | true => rw [contains_eggInfo_of_pkgInfo _ h2] at h4; cases h4
  · cases h3 : containsStr (relName e.name) ".egg-info/requires.txt" with
    | false => rfl
    | true => rw [contains_eggInfo_of_requires _ h3] at h4; cases h4

theorem scan_err_of_setup (t : String) (l : List TarEntry) :
    ∀ c d, (∃ e ∈ l, relName e.name = "setup.py") →
      ∃ err, scanArchive t l c d = .error err := by
  induction l with
  | nil => intro c d h; simp at h
  | cons e rest ih =>
    intro c d h
    rw [scanArchive_cons]
    by_cases h1 : relName e.name = "setup.py"
    · rw [if_pos h1]
      exact ⟨.notUpipCompatible, rfl⟩
    · rw [if_neg h1]
      have hrest : ∃ x ∈ rest, relName x.name = "setup.py" := by
        obtain ⟨x, hx, hxs⟩ := h
        rcases List.mem_cons.mp hx with h2 | h2
        · exact absurd (h2 ▸ hxs) h1
        · exact ⟨x, h2, hxs⟩
      split
      · exact ih c d hrest
      · split
        · cases hc : e.content with
          | some lines => exact ih c _ hrest
          | none => exact ⟨.typeError, rfl⟩
        · split
          · exact ih c d hrest
          · exact ih _ d hrest

theorem scan_notUpip_of_setup (t : String) (l : List TarEntry) :
    ∀ c d, (∀ e ∈ l, crashesRequires e = false) →
      (∃ e ∈ l, relName e.name = "setup.py") →
      scanArchive t l c d = .error .notUpipCompatible := by
  induction l with
  | nil => intro c d _ h; simp at h
  | cons e rest ih =>
    intro c d hnc h
    have hncr : ∀ x ∈ rest, crashesRequires x = false :=
      fun x hx => hnc x (List.mem_cons_of_mem e hx)
    rw [scanArchive_cons]
    by_cases h1 : relName e.name = "setup.py"
    · rw [if_pos h1]
    · rw [if_neg h1]
      have hrest : ∃ x ∈ rest, relName x.name = "setup.py" := by
        obtain ⟨x, hx, hxs⟩ := h
        rcases List.mem_cons.mp hx with h2 | h2
        · exact absurd (h2 ▸ hxs) h1
        · exact ⟨x, h2, hxs⟩
      by_cases h2 : containsStr (relName e.name) ".egg-info/PKG-INFO" = true
      · rw [if_pos h2]
        exact ih c d hncr hrest
      · rw [if_neg h2]
        by_cases h3 : containsStr (relName e.name) ".egg-info/requires.txt" = true
        · rw [if_pos h3]
          obtain ⟨lines, hc⟩ := content_some_of_not_crashes e h1
            (by simpa using h2) h3 (hnc e (List.mem_cons_self e rest))
          rw [hc]
          exact ih c _ hncr hrest
        · rw [if_neg h3]
          split
          · exact ih c d hncr hrest
          · exact ih _ d hncr hrest

theorem expDeps_cons (e : TarEntry) (rest : List TarEntry) :
    expDeps (e :: rest) =
      (if hitsRequires e = true then parseReqLines (e.content.getD []) else []) ++ expDeps rest :=
  rfl

theorem scan_ok (t : String) (l : List TarEntry) :
    ∀ c d, (∀ e ∈ l, relName e.name ≠ "setup.py") →
      (∀ e ∈ l, crashesRequires e = false) →
      ∃ cm, scanArchive t l c d = .ok (cm, d ++ expDeps l) := by
  induction l with
  | nil => intro c d _ _; exact ⟨c, by simp [scanArchive, expDeps]⟩
  | cons e rest ih =>
    intro c d h hnc
    have h1 : relName e.name ≠ "setup.py" := h e (List.mem_cons_self e rest)
    have hrest : ∀ x ∈ rest, relName x.name ≠ "setup.py" :=
      fun x hx => h x (List.mem_cons_of_mem e hx)
    have hncr : ∀ x ∈ rest, crashesRequires x = false :=
      fun x hx => hnc x (List.mem_cons_of_mem e hx)
    rw [scanArchive_cons, if_neg h1]
    by_cases h2 : containsStr (relName e.name) ".egg-info/PKG-INFO" = true
    · rw [if_pos h2]
      have hhit : hitsRequires e = false := by
        rw [hitsRequires]
        simp [h2]
      rw [expDeps_cons, hhit]
      simpa using ih c d hrest hncr
    · rw [if_neg h2]
      by_cases h3 : containsStr (relName e.name) ".egg-info/requires.txt" = true
      · rw [if_pos h3]
        have hhit : hitsRequires e = true := by
          rw [hitsRequires]
          simp [h1, h2, h3, bne_iff_ne]
        obtain ⟨lines, hc⟩ := content_some_of_not_crashes e h1 (by simpa using h2) h3
          (hnc e (List.mem_cons_self e rest))
        rw [hc]
        dsimp only
        obtain ⟨cm, hcm⟩ := ih c (d ++ parseReqLines lines) hrest hncr
        refine ⟨cm, ?_⟩
        rw [hcm, expDeps_cons, hhit, hc]
        simp
      · rw [if_neg h3]
        have hhit : hitsRequires e = false := by
          rw [hitsRequires]
          simp [h3]
        by_cases h4 : containsStr (relName e.name) ".egg-info" = true
        · rw [if_pos h4, expDeps_cons, hhit]
          simpa using ih c d hrest hncr
        · rw [if_neg h4, expDeps_cons, hhit]
          simpa using ih (insertContent c (osJoin t (relName e.name)) e.content) d hrest hncr

theorem scan_content_frame (t : String) (l : List TarEntry) :
    ∀ c d k, (∀ e ∈ l, writesEntry e = true → destOf t e ≠ k) →
      ∀ cm d2, scanArchive t l c d = .ok (cm, d2) → lookupPath cm k = lookupPath c k := by
  induction l with
  | nil =>
    intro c d k _ cm d2 hok
    rw [scanArchive] at hok
    cases hok
    rfl
  | cons e rest ih =>
    intro c d k hk cm d2 hok
    have hkrest : ∀ x ∈ rest, writesEntry x = true → destOf t x ≠ k :=
      fun x hx => hk x (List.mem_cons_of_mem e hx)
    rw [scanArchive_cons] at hok
    by_cases h1 : relName e.name = "setup.py"
    · rw [if_pos h1] at hok; cases hok
    · rw [if_neg h1] at hok
      by_cases h2 : containsStr (relName e.name) ".egg-info/PKG-INFO" = true
      · rw [if_pos h2] at hok
        exact ih c d k hkrest cm d2 hok
      · rw [if_neg h2] at hok
        by_cases h3 : containsStr (relName e.name) ".egg-info/requires.txt" = true
        · rw [if_pos h3] at hok
          cases hc : e.content with
          | none => rw [hc] at hok; cases hok
          | some lines =>
            rw [hc] at hok
            exact ih c _ k hkrest cm d2 hok
        · rw [if_neg h3] at hok
          by_cases h4 : containsStr (relName e.name) ".egg-info" = true
          · rw [if_pos h4] at hok
            exact ih c d k hkrest cm d2 hok
          · rw [if_neg h4] at hok
            have hw : writesEntry e = true := by
              rw [writesEntry]
              simp [h1, h4, bne_iff_ne]
            have hne : destOf t e ≠ k := hk e (List.mem_cons_self e rest) hw
            rw [ih _ d k hkrest cm d2 hok, destOf] at *
            exact lookup_insert_other c (osJoin t (relName e.name)) k e.content
              (fun hh => hne hh.symm) |>.symm ▸ rfl

theorem scan_lookup (t : String) (l : List TarEntry) :
    ∀ c d, ((l.filter writesEntry).map (destOf t)).Nodup →
      ∀ e ∈ l, writesEntry e = true →
      ∀ cm d2, scanArchive t l c d = .ok (cm, d2) →
      lookupPath cm (destOf t e) = some e.content := by
  induction l with
  | nil => intro c d _ e he; simp at he
  | cons e0 rest ih =>
    intro c d hnd e he hw cm d2 hok
    rcases List.mem_cons.mp he with heq | hmem
    · subst heq
      obtain ⟨h1, h2, h3, h4⟩ := writesEntry_branch e hw
      rw [scanArchive_cons, if_neg h1, h2, if_neg (by simp), h3, if_neg (by simp), h4,
        if_neg (by simp)] at hok
      have hfe : (e :: rest).filter writesEntry = e :: rest.filter writesEntry := by
        rw [List.filter_cons, if_pos hw]
      rw [hfe, List.map_cons, List.nodup_cons] at hnd
      have hfr : ∀ x ∈ rest, writesEntry x = true → destOf t x ≠ destOf t e := by
        intro x hx hwx hdx
        exact hnd.1 (hdx ▸ List.mem_map_of_mem (destOf t) (List.mem_filter.mpr ⟨hx, hwx⟩))
      rw [scan_content_frame t rest _ d (destOf t e) hfr cm d2 hok, destOf]
      exact lookup_insert_self c (osJoin t (relName e.name)) e.content
    · have hndr : ((rest.filter writesEntry).map (destOf t)).Nodup := by
        rw [List.filter_cons] at hnd
        by_cases hw0 : writesEntry e0
        · rw [if_pos hw0, List.map_cons, List.nodup_cons] at hnd
          exact hnd.2
        · rwa [if_neg hw0] at hnd
      rw [scanArchive_cons] at hok
      by_cases h1 : relName e0.name = "setup.py"
      · rw [if_pos h1] at hok; cases hok
      · rw [if_neg h1] at hok
        by_cases h2 : containsStr (relName e0.name) ".egg-info/PKG-INFO" = true
        · rw [if_pos h2] at hok
          exact ih c d hndr e hmem hw cm d2 hok
        · rw [if_neg h2] at hok
          by_cases h3 : containsStr (relName e0.name) ".egg-info/requires.txt" = true
          · rw [if_pos h3] at hok
            cases hc : e0.content with
            | none => rw [hc] at hok; cases hok
            | some lines =>
              rw [hc] at hok
              exact ih c _ hndr e hmem hw cm d2 hok
          · rw [if_neg h3] at hok
            by_cases h4 : containsStr (relName e0.name) ".egg-info" = true
            · rw [if_pos h4] at hok
              exact ih c d hndr e hmem hw cm d2 hok
            · rw [if_neg h4] at hok
              exact ih _ d hndr e hmem hw cm d2 hok

theorem scan_keys_nodup (t : String) (l : List TarEntry) :
    ∀ c d cm d2, (c.map Prod.fst).Nodup → scanArchive t l c d = .ok (cm, d2) →
      (cm.map Prod.fst).Nodup := by
  induction l with
  | nil =>
    intro c d cm d2 hc hok
    rw [scanArchive] at hok
    cases hok
    exact hc
  | cons e rest ih =>
    intro c d cm d2 hc hok
    rw [scanArchive_cons] at hok
    by_cases h1 : relName e.name = "setup.py"
    · rw [if_pos h1] at hok; cases hok
    · rw [if_neg h1] at hok
      by_cases h2 : containsStr (relName e.name) ".egg-info/PKG-INFO" = true
      · rw [if_pos h2] at hok
        exact ih c d cm d2 hc hok
      · rw [if_neg h2] at hok
        by_cases h3 : containsStr (relName e.name) ".egg-info/requires.txt" = true
        · rw [if_pos h3] at hok
          cases hcon : e.content with
          | none => rw [hcon] at hok; cases hok
          | some lines =>
            rw [hcon] at hok
            exact ih c _ cm d2 hc hok
        · rw [if_neg h3] at hok
          by_cases h4 : containsStr (relName e.name) ".egg-info" = true
          · rw [if_pos h4] at hok
            exact ih c d cm d2 hc hok
          · rw [if_neg h4] at hok
            exact ih _ d cm d2 (insert_keys_nodup c _ e.content hc) hok

/-! ## Helper lemmas: the engine loop -/

theorem engineStep_next_cases (env : EngineEnv) (s s' : EngineState)
    (h : engineStep env s = .next s') :
    (∃ spec rest, s.queue = spec :: rest ∧ s' = { s with queue := rest })
    ∨ (∃ spec rest, s.queue = spec :: rest ∧ spec ∉ s.installed ∧ spec ∉ s.pipSpecs
        ∧ s' = { s with queue := rest, pipSpecs := s.pipSpecs ++ [spec] })
    ∨ (∃ spec rest, s.queue = spec :: rest ∧ spec ∉ s.installed ∧ spec ∉ s.pipSpecs
        ∧ goodSpec env spec
        ∧ s' = { s with queue := rest, pipSpecs := s.pipSpecs ++ [spec],
                        inspected := s.inspected ++ [spec] })
    ∨ (∃ spec rest deps, s.queue = spec :: rest ∧ spec ∉ s.installed ∧ spec ∉ s.pipSpecs
        ∧ goodSpec env spec
        ∧ s' = { queue := enqueueDeps (s.installed ++ [spec]) rest deps,
                 installed := s.installed ++ [spec],
                 pipSpecs := s.pipSpecs,
                 inspected := s.inspected ++ [spec] }) := by
  cases hq : s.queue with
  | nil => rw [engineStep, hq] at h; cases h
  | cons spec rest =>
    rw [engineStep, hq] at h
    dsimp only at h
    by_cases hdup : spec ∈ s.installed ∨ spec ∈ s.pipSpecs
    · rw [if_pos hdup] at h
      injection h with h1
      exact Or.inl ⟨spec, rest, rfl, h1.symm⟩
    · rw [if_neg hdup] at h
      push_neg at hdup
      cases hf : env.fetch spec with
      | none => rw [hf] at h; dsimp only at h; cases h
      | some meta =>
        rw [hf] at h
        dsimp only at h
        cases hl : lookupAssets meta.releases meta.infoVersion with
        | none => rw [hl] at h; dsimp only at h; cases h
        | some assets =>
          rw [hl] at h
          dsimp only at h
          cases assets with
          | nil =>
            dsimp only at h
            injection h with h1
            exact Or.inr (Or.inl ⟨spec, rest, rfl, hdup.1, hdup.2, h1.symm⟩)
          | cons a t =>
            cases t with
            | cons b t2 =>
              dsimp only at h
              injection h with h1
              exact Or.inr (Or.inl ⟨spec, rest, rfl, hdup.1, hdup.2, h1.symm⟩)
            | nil =>
              dsimp only at h
              by_cases hurl : strEndsWith a.url ".tar.gz" = true
              · rw [if_pos hurl] at h
                have hgood : goodSpec env spec := ⟨meta, [a], hf, hl, by rw [goodAssets, hurl]⟩
                cases hins : env.inspect a.url with
                | none =>
                  rw [hins] at h
                  dsimp only at h
                  injection h with h1
                  exact Or.inr (Or.inr (Or.inl ⟨spec, rest, rfl, hdup.1, hdup.2, hgood, h1.symm⟩))
                | some deps =>
                  rw [hins] at h
                  dsimp only at h
                  rw [if_neg hdup.1] at h
                  injection h with h1
                  exact Or.inr (Or.inr (Or.inr ⟨spec, rest, deps, rfl, hdup.1, hdup.2, hgood, h1.symm⟩))
              · rw [if_neg hurl] at h
                injection h with h1
                exact Or.inr (Or.inl ⟨spec, rest, rfl, hdup.1, hdup.2, h1.symm⟩)

theorem engineStep_done (env : EngineEnv) (s s' : EngineState)
    (h : engineStep env s = .done s') : s' = s ∧ s.queue = [] := by
  cases hq : s.queue with
  | nil =>
    rw [engineStep, hq] at h
    injection h with h1
    exact ⟨h1.symm, rfl⟩
  | cons spec rest =>
    rw [engineStep, hq] at h
    dsimp only at h
    by_cases hdup : spec ∈ s.installed ∨ spec ∈ s.pipSpecs
    · rw [if_pos hdup] at h; cases h
    · rw [if_neg hdup] at h
      cases hf : env.fetch spec with
      | none => rw [hf] at h; dsimp only at h; cases h
      | some meta =>
        rw [hf] at h
        dsimp only at h
        cases hl : lookupAssets meta.releases meta.infoVersion with
        | none => rw [hl] at h; dsimp only at h; cases h
        | some assets =>
          rw [hl] at h
          dsimp only at h
          cases assets with
          | nil => dsimp only at h; cases h
          | cons a t =>
            cases t with
            | cons b t2 => dsimp only at h; cases h
            | nil =>
              dsimp only at h
              by_cases hurl : strEndsWith a.url ".tar.gz" = true
              · rw [if_pos hurl] at h
                cases hins : env.inspect a.url with
                | none => rw [hins] at h; dsimp only at h; cases h
                | some deps => rw [hins] at h; dsimp only at h; cases h
              · rw [if_neg hurl] at h; cases h

theorem engineRun_inspected (env : EngineEnv) :
    ∀ fuel s x, x ∈ ((engineRun env fuel s).state).inspected →
      x ∈ s.inspected ∨ goodSpec env x := by
  intro fuel
  induction fuel with
  | zero => intro s x hx; exact Or.inl hx
  | succ n ih =>
    intro s x hx
    rw [engineRun] at hx
    cases hstep : engineStep env s with
    | done s1 =>
      rw [hstep] at hx
      obtain ⟨h1, _⟩ := engineStep_done env s s1 hstep
      exact Or.inl (by rwa [RunOut.state, h1] at hx)
    | crash =>
      rw [hstep] at hx
      exact Or.inl hx
    | next s1 =>
      rw [hstep] at hx
      have hx1 := ih s1 x hx
      rcases hx1 with hx1 | hx1
      · rcases engineStep_next_cases env s s1 hstep with
          ⟨sp, r, hq, hs⟩ | ⟨sp, r, hq, _, _, hs⟩ | ⟨sp, r, hq, _, _, hg, hs⟩ |
          ⟨sp, r, dp, hq, _, _, hg, hs⟩
        · rw [hs] at hx1; exact Or.inl hx1
        · rw [hs] at hx1; exact Or.inl hx1
        · rw [hs] at hx1
          simp only [List.mem_append, List.mem_singleton] at hx1
          rcases hx1 with hx1 | hx1
          · exact Or.inl hx1
          · exact Or.inr (hx1 ▸ hg)
        · rw [hs] at hx1
          simp only [List.mem_append, List.mem_singleton] at hx1
          rcases hx1 with hx1 | hx1
          · exact Or.inl hx1
          · exact Or.inr (hx1 ▸ hg)
      · exact Or.inr hx1

theorem step_preserves_pip_inv (env : EngineEnv) (s s' : EngineState)
    (h : engineStep env s = .next s')
    (h1 : s.pipSpecs.Nodup) (h2 : ∀ x ∈ s.pipSpecs, x ∉ s.installed) :
    s'.pipSpecs.Nodup ∧ ∀ x ∈ s'.pipSpecs, x ∉ s'.installed := by
  rcases engineStep_next_cases env s s' h with
    ⟨sp, r, hq, hs⟩ | ⟨sp, r, hq, hi, hp, hs⟩ | ⟨sp, r, hq, hi, hp, _, hs⟩ |
    ⟨sp, r, dp, hq, hi, hp, _, hs⟩
  · rw [hs]; exact ⟨h1, h2⟩
  · rw [hs]
    dsimp only
    constructor
    · simp only [List.nodup_append, List.nodup_cons, List.nodup_nil]
      exact ⟨h1, by simp, by simpa using hp⟩
    · intro x hx
      rcases List.mem_append.mp hx with hx | hx
      · exact h2 x hx
      · rw [List.mem_singleton.mp hx]; exact hi
  · rw [hs]
    dsimp only
    constructor
    · simp only [List.nodup_append, List.nodup_cons, List.nodup_nil]
      exact ⟨h1, by simp, by simpa using hp⟩
    · intro x hx
      rcases List.mem_append.mp hx with hx | hx
      · exact h2 x hx
      · rw [List.mem_singleton.mp hx]; exact hi
  · rw [hs]
    dsimp only
    refine ⟨h1, ?_⟩
    intro x hx hmem
    rcases List.mem_append.mp hmem with hm | hm
    · exact h2 x hx hm
    · rw [List.mem_singleton.mp hm] at hx
      exact hp hx

theorem engineRun_pip_inv (env : EngineEnv) :
    ∀ fuel s, s.pipSpecs.Nodup → (∀ x ∈ s.pipSpecs, x ∉ s.installed) →
      ((engineRun env fuel s).state.pipSpecs.Nodup
        ∧ ∀ x ∈ (engineRun env fuel s).state.pipSpecs,
            x ∉ (engineRun env fuel s).state.installed) := by
  intro fuel
  induction fuel with
  | zero => intro s ha hb; exact ⟨ha, hb⟩
  | succ n ih =>
    intro s ha hb
    rw [engineRun]
    cases hstep : engineStep env s with
    | done s1 =>
      obtain ⟨h1, _⟩ := engineStep_done env s s1 hstep
      rw [RunOut.state, h1]
      exact ⟨ha, hb⟩
    | crash => exact ⟨ha, hb⟩
    | next s1 =>
      obtain ⟨ha1, hb1⟩ := step_preserves_pip_inv env s s1 hstep ha hb
      exact ih s1 ha1 hb1

/-! ## Helper lemmas: the metadata fetch loop -/

theorem fetchAux_noMatch (net : String → Resp) (req : Requirement) (u : String)
    (rest : List String) (h : noMatchAt net req u) :
    fetchMetadataAux net req (u :: rest) = fetchMetadataAux net req rest := by
  rw [fetchMetadataAux]
  rcases h with h404 | ⟨m, hok, hres⟩ | ⟨m, v, hok, hres, hne, h404v⟩
  · rw [h404]
  · rw [hok]
    dsimp only
    rw [hres]
  · rw [hok]
    dsimp only
    rw [hres]
    dsimp only
    rw [if_neg hne, h404v]

/-! ## Claims -/

/-- C1 counterexample: the archive cexC1 contains a setup.py entry under
the distribution root (at root-relative path sub/setup.py), yet the
inspector accepts the archive and writes its files to the target
directory — the scan rejects only an entry whose root-relative path is
exactly setup.py. -/
theorem c1_counterexample :
    (cexC1.any (fun e =>
        (relName e.name == "setup.py") || strEndsWith (relName e.name) "/setup.py")) = true
    ∧ installFromArchive "t" cexC1 =
        .ok ([("t/", none), ("t/sub/setup.py", some ["import setuptools"])], [])
    ∧ diskAfter [] "t" cexC1 =
        [("t/", none), ("t/sub/setup.py", some ["import setuptools"])] :=
  ⟨rfl, rfl, rfl⟩

/-- C1 (amended: the rejected entry is one whose root-relative path is
exactly setup.py, not one anywhere under the distribution root; and the
signal is NotUpipCompatible provided no entry is a directory routed to
the requires.txt parse — such an entry makes the source raise
TypeError, also before any write): for every archive containing an
entry whose root-relative path is exactly setup.py — at any position in
the entry list — the call aborts with an error and the disk is left
unchanged, no file or directory from the archive being written; when
additionally no entry crashes the requires.txt parse, the error is
precisely the NotUpipCompatible signal. -/
theorem c1_theorem (target : String) (entries : List TarEntry) (disk : Disk)
    (h : ∃ e ∈ entries, relName e.name = "setup.py") :
    (∃ err, installFromArchive target entries = .error err)
    ∧ diskAfter disk target entries = disk
    ∧ ((∀ e ∈ entries, crashesRequires e = false) →
        installFromArchive target entries = .error .notUpipCompatible) := by
  obtain ⟨err, herr⟩ : ∃ err, installFromArchive target entries = .error err :=
    scan_err_of_setup target entries [] [] h
  refine ⟨⟨err, herr⟩, ?_, ?_⟩
  · simp only [diskAfter, herr]
  · intro hnc
    exact scan_notUpip_of_setup target entries [] [] hnc h

/-- C1 witness: witC1 has its setup.py as the third entry, after a
directory and a file entry, and no directory requires.txt entry; the
archive is rejected with NotUpipCompatible and a non-empty prior disk
is untouched. -/
theorem c1_witness :
    installFromArchive "t" witC1 = .error .notUpipCompatible
    ∧ diskAfter [("prior", none)] "t" witC1 = [("prior", none)] :=
  have h := c1_theorem "t" witC1 [("prior", none)]
    ⟨⟨"pkg/setup.py", some ["from setuptools import setup"]⟩, by decide, by decide⟩
  ⟨h.2.2 (by decide), h.2.1⟩

/-- C2: code-bug evidence.  For the constraint-free requirement
reqPlain the source intends to pin the index's current version (it
assigns ver_specs = ["==" + current_version]) but _resolve_version
receives req, not ver_specs, so the pin is dead: against a document
whose current version is 1.0 but which also releases 2.0, the fetch
resolves 2.0, performs a second network call, and returns the
2.0-specific document rather than the already-fetched main document. -/
theorem c2_theorem :
    reqPlain.specs = []
    ∧ netC2 (jsonUrl "https://idx" "pkg") = .ok metaMainC2
    ∧ metaMainC2.infoVersion = "1.0"
    ∧ fetchMetadata netC2 reqPlain ["https://idx"] = .found metaV2C2
    ∧ metaV2C2.infoVersion = "2.0"
    ∧ metaV2C2 ≠ metaMainC2 :=
  ⟨rfl, rfl, rfl, rfl, rfl, by decide⟩

/-- C3 counterexample: in cexC3 two retained entries map to the same
destination path t/data.txt; the dict overwrite keeps only the later
entry's bytes, so the first entry does not appear with its full
content — the claim fails without a distinct-destination proviso. -/
theorem c3_counterexample :
    (∀ e ∈ cexC3, relName e.name ≠ "setup.py")
    ∧ (⟨"pkg/data.txt", some ["X"]⟩ : TarEntry) ∈ cexC3
    ∧ writesEntry ⟨"pkg/data.txt", some ["X"]⟩ = true
    ∧ lookupPath (diskAfter [] "t" cexC3) (destOf "t" ⟨"pkg/data.txt", some ["X"]⟩)
        = some (some ["Y"])
    ∧ (["Y"] : List String) ≠ ["X"] := by
  decide

/-- C3 (amended: additionally requires that no entry is a directory
routed to the requires.txt parse — the source raises TypeError there —
and that the retained entries' destination paths are pairwise distinct,
which duplicate entry names or colliding roots can violate): for every
archive with no entry whose root-relative path is setup.py and no
requires.txt directory entry, the call succeeds and returns exactly the
filtered lines of the archive's requires.txt entries in file order,
and — when retained destinations are distinct — every retained entry
appears on disk at its destination path: directory entries as directory
markers, file entries with their full content. -/
theorem c3_theorem (target : String) (entries : List TarEntry) (disk : Disk)
    (hns : ∀ e ∈ entries, relName e.name ≠ "setup.py")
    (hnc : ∀ e ∈ entries, crashesRequires e = false) :
    (∃ cm, installFromArchive target entries = .ok (cm, expDeps entries))
    ∧ (((entries.filter writesEntry).map (destOf target)).Nodup →
        ∀ e ∈ entries, writesEntry e = true →
          lookupPath (diskAfter disk target entries) (destOf target e) = some e.content) := by
  obtain ⟨cm, hcm⟩ := scan_ok target entries [] [] hns hnc
  rw [List.nil_append] at hcm
  have hcm2 : installFromArchive target entries = .ok (cm, expDeps entries) := hcm
  refine ⟨⟨cm, hcm2⟩, ?_⟩
  intro hnd e he hw
  simp only [diskAfter, hcm2]
  have hkeys : (cm.map Prod.fst).Nodup :=
    scan_keys_nodup target entries [] [] cm (expDeps entries) (by simp) hcm
  have hlook : lookupPath cm (destOf target e) = some e.content :=
    scan_lookup target entries [] [] hnd e he hw cm (expDeps entries) hcm
  exact foldl_write_lookup cm disk (destOf target e) e.content hkeys hlook

/-- C3 witness: the archive witC3 (directory, file, requires.txt with a
blank and a comment line) yields dependency list depA, depB and its file
entry appears on disk with its content. -/
theorem c3_witness :
    (∃ cm, installFromArchive "t" witC3 = .ok (cm, expDeps witC3))
    ∧ expDeps witC3 = ["depA", "depB"]
    ∧ lookupPath (diskAfter [] "t" witC3) (destOf "t" ⟨"pkg/mod.py", some ["code"]⟩)
        = some (some ["code"]) := by
  have h := c3_theorem "t" witC3 [] (by decide) (by decide)
  exact ⟨h.1, by decide, h.2 (by decide) ⟨"pkg/mod.py", some ["code"]⟩ (by decide) (by decide)⟩

/-- C4: _resolve_version returns none exactly when no version key both
satisfies the requirement and has a non-empty release list, and any
version it returns is a candidate that is maximal in the parse_version
precedence ordering (the verKeyStr key, not lexicographic order on the
strings); on the documented example pkg>=1.0 over versions 0.9, 1.0,
1.2, 2.0-beta with only 1.0 and 1.2 released it returns 1.2. -/
theorem c4_theorem :
    (∀ req meta, resolveVersion req meta = none ↔ matchingVersions req meta = [])
    ∧ (∀ req meta v, resolveVersion req meta = some v →
        v ∈ matchingVersions req meta
          ∧ ∀ c ∈ matchingVersions req meta, verKeyStr c ≤ verKeyStr v)
    ∧ resolveVersion reqC4 metaC4 = some "1.2" := by
  refine ⟨?_, ?_, by rfl⟩
  · intro req meta
    rw [resolveVersion]
    cases h : matchingVersions req meta with
    | nil => simp
    | cons v0 rest => simp
  · intro req meta v hv
    rw [resolveVersion] at hv
    cases h : matchingVersions req meta with
    | nil => rw [h] at hv; cases hv
    | cons v0 rest =>
      rw [h] at hv
      dsimp only at hv
      injection hv with hv1
      rw [← hv1]
      exact ⟨maxLast_mem rest v0, fun c hc => maxLast_ge rest v0 c hc⟩

/-- C4 witness: the maximality conclusion instantiated on the example
document: 1.2 is a candidate and dominates the 1.0 candidate. -/
theorem c4_witness :
    "1.2" ∈ matchingVersions reqC4 metaC4 ∧ verKeyStr "1.0" ≤ verKeyStr "1.2" :=
  ⟨(c4_theorem.2.1 reqC4 metaC4 "1.2" rfl).1,
   (c4_theorem.2.1 reqC4 metaC4 "1.2" rfl).2 "1.0" (by decide)⟩

/-- C5: a 404 from an index's fetch makes the loop continue with the
remaining indexes; any other transport failure on the main fetch aborts
the whole call with the transport error; and when every index yields no
match the call fails with the UserError naming the requirement's project
name and the full index URL list. -/
theorem c5_theorem :
    (∀ (net : String → Resp) (req : Requirement) (u : String) (rest : List String),
        net (jsonUrl u req.projectName) = .notFound →
        fetchMetadataAux net req (u :: rest) = fetchMetadataAux net req rest)
    ∧ (∀ (net : String → Resp) (req : Requirement) (u : String) (rest : List String),
        net (jsonUrl u req.projectName) = .failure →
        fetchMetadata net req (u :: rest) = .transport)
    ∧ (∀ (net : String → Resp) (req : Requirement) (urls : List String),
        (∀ u ∈ urls, noMatchAt net req u) →
        fetchMetadata net req urls = .userError req.projectName urls) := by
  refine ⟨?_, ?_, ?_⟩
  · intro net req u rest h
    exact fetchAux_noMatch net req u rest (Or.inl h)
  · intro net req u rest h
    rw [fetchMetadata, fetchMetadataAux, h]
  · intro net req urls h
    have hex : fetchMetadataAux net req urls = .exhausted := by
      induction urls with
      | nil => rfl
      | cons u rest ih =>
        rw [fetchAux_noMatch net req u rest (h u (List.mem_cons_self u rest))]
        exact ih (fun x hx => h x (List.mem_cons_of_mem u hx))
    simp only [fetchMetadata, hex]

/-- C5 witness: index idx1 404s for pkg, so the loop proceeds to idx2,
whose valid document is returned without error. -/
theorem c5_witness :
    fetchMetadataAux netC5 reqPlain ["idx1", "idx2"] = fetchMetadataAux netC5 reqPlain ["idx2"]
    ∧ fetchMetadata netC5 reqPlain ["idx1", "idx2"] = .found metaV2C2 :=
  ⟨c5_theorem.1 netC5 reqPlain "idx1" ["idx2"] rfl, rfl⟩

/-- C6: a popped spec already in the installed set or the fallback list
is skipped with no other state change; and in the scenario where
installing a discovers dependency b that is also in the original spec
list, b ends up exactly once in the installed set, never in the fallback
list, and the inspector runs exactly once for it. -/
theorem c6_theorem :
    (∀ env (s : EngineState) spec rest, s.queue = spec :: rest →
        (spec ∈ s.installed ∨ spec ∈ s.pipSpecs) →
        engineStep env s = .next { s with queue := rest })
    ∧ installAllUpipCompatible envC6 10 ["a", "b"] =
        .finished ⟨[], ["a", "b"], [], ["a", "b"]⟩
    ∧ (installAllUpipCompatible envC6 10 ["a", "b"]).state.installed.count "b" = 1
    ∧ (installAllUpipCompatible envC6 10 ["a", "b"]).state.pipSpecs.count "b" = 0
    ∧ (installAllUpipCompatible envC6 10 ["a", "b"]).state.inspected.count "b" = 1 := by
  refine ⟨?_, by rfl, by rfl, by rfl, by rfl⟩
  intro env s spec rest hq hdup
  rw [engineStep, hq]
  dsimp only
  rw [if_pos hdup]

/-- C6 witness: the skip rule applied to a state whose queue head is
already installed. -/
theorem c6_witness :
    engineStep envC6 ⟨["x"], ["x"], [], []⟩ = .next ⟨[], ["x"], [], []⟩ :=
  c6_theorem.1 envC6 ⟨["x"], ["x"], [], []⟩ "x" [] rfl (Or.inl (by decide))

/-- C7: when the popped spec's fetched metadata has a release-asset list
failing the single-.tar.gz test, the step appends the spec to the
fallback list and changes nothing else — in particular the inspector
trace; and across any run, every spec ever handed to the inspector
passes that test, so a failing spec is never inspected. -/
theorem c7_theorem :
    (∀ env (s : EngineState) spec rest meta assets, s.queue = spec :: rest →
        spec ∉ s.installed → spec ∉ s.pipSpecs →
        env.fetch spec = some meta →
        lookupAssets meta.releases meta.infoVersion = some assets →
        goodAssets assets = false →
        engineStep env s = .next { s with queue := rest, pipSpecs := s.pipSpecs ++ [spec] })
    ∧ (∀ env fuel (s : EngineState) x, x ∈ ((engineRun env fuel s).state).inspected →
        x ∈ s.inspected ∨ goodSpec env x)
    ∧ (∀ env fuel specs x, x ∈ (installAllUpipCompatible env fuel specs).state.inspected →
        goodSpec env x) := by
  refine ⟨?_, ?_, ?_⟩
  · intro env s spec rest meta assets hq hi hp hf hl hbad
    rw [engineStep, hq]
    dsimp only
    rw [if_neg (by push_neg; exact ⟨hi, hp⟩), hf]
    dsimp only
    rw [hl]
    dsimp only
    cases assets with
    | nil => rfl
    | cons a t =>
      cases t with
      | cons b t2 => rfl
      | nil =>
        rw [goodAssets] at hbad
        dsimp only
        rw [if_neg (by rw [hbad]; exact Bool.false_ne_true)]
  · intro env fuel s x hx
    exact engineRun_inspected env fuel s x hx
  · intro env fuel specs x hx
    exact (engineRun_inspected env fuel ⟨specs, [], [], []⟩ x hx).resolve_left (by simp)

/-- C7 witness: the spec c of envC7 resolves to a two-asset release and
is classified for the fallback installer; the inspector trace stays
empty. -/
theorem c7_witness :
    engineStep envC7 ⟨["c"], [], [], []⟩ = .next ⟨[], [], ["c"], []⟩ :=
  c7_theorem.1 envC7 ⟨["c"], [], [], []⟩ "c" []
    ⟨"1.0", [("1.0", [⟨"c1.tar.gz"⟩, ⟨"c2.tar.gz"⟩])]⟩
    [⟨"c1.tar.gz"⟩, ⟨"c2.tar.gz"⟩]
    rfl (by decide) (by decide) rfl rfl rfl

/-- C8: the pip phase drops exactly MP_ORG_INDEX from the supplied
index URLs; with no suitable index left it fails with the UserError and
never consults the external process; and after a successful run the
final target listing is the prior listing with precisely the
.dist-info-suffixed entries removed, all others kept. -/
theorem c8_theorem :
    (∀ (urls : List String) (u : String),
        u ∈ suitableIndexes urls ↔ u ∈ urls ∧ u ≠ MP_ORG_INDEX)
    ∧ (∀ (w1 w2 : PipWorld) specs t urls, suitableIndexes urls = [] →
        installWithPip w1 specs t urls = .userError "No suitable indexes for pip"
          ∧ installWithPip w1 specs t urls = installWithPip w2 specs t urls)
    ∧ (∀ (w : PipWorld) specs t urls args dir, installWithPip w specs t urls = .ok args dir →
        dir = w.dirAfterRun.filter (fun n => !strEndsWith n ".dist-info")
          ∧ ∀ n ∈ w.dirAfterRun, (n ∈ dir ↔ strEndsWith n ".dist-info" = false)) := by
  refine ⟨?_, ?_, ?_⟩
  · intro urls u
    rw [suitableIndexes, List.mem_filter, bne_iff_ne]
  · intro w1 w2 specs t urls h
    constructor
    · simp only [installWithPip, h]
      rfl
    · simp only [installWithPip, h]
      rfl
  · intro w specs t urls args dir h
    simp only [installWithPip] at h
    by_cases hs : (suitableIndexes urls).isEmpty
    · rw [if_pos hs] at h; cases h
    · rw [if_neg hs] at h
      by_cases hr : w.runOk
      · rw [hr] at h
        simp only [Bool.not_true, Bool.false_eq_true, if_false] at h
        injection h with h1 h2
        refine ⟨h2.symm, ?_⟩
        intro n hn
        rw [← h2, List.mem_filter]
        constructor
        · intro hx
          simpa using hx.2
        · intro hx
          exact ⟨hn, by simpa using hx⟩
      · rw [Bool.not_eq_true] at hr
        rw [hr] at h
        simp only [Bool.not_false, if_true] at h
        cases h

/-- C8 witness: with MP_ORG_INDEX the only index, the phase fails
before the external process regardless of that process's behavior. -/
theorem c8_witness :
    installWithPip ⟨true, ["pkg", "pkg-1.0.dist-info"]⟩ ["a"] "t" [MP_ORG_INDEX]
      = .userError "No suitable indexes for pip" :=
  (c8_theorem.2.1 ⟨true, ["pkg", "pkg-1.0.dist-info"]⟩ ⟨false, []⟩ ["a"] "t" [MP_ORG_INDEX]
    (by decide)).1

/-- C9: the public entry point treats a bare string spec exactly as the
singleton list of that spec, for every environment, fuel, working
directory, target directory and index URL list. -/
theorem c9_theorem (env : EngineEnv) (pw : PipWorld) (fuel : Nat) (cwd : String)
    (s : String) (dir : Option String) (urls : Option (List String)) :
    install env pw fuel cwd (.inl s) dir urls = install env pw fuel cwd (.inr [s]) dir urls :=
  rfl

/-- C10: every engine step from a state whose fallback list is
duplicate-free and disjoint from the installed set preserves that
invariant, and every run from the engine's initial state (for any
environment, fuel and spec list) ends — also at fuel exhaustion or a
crash — in a state satisfying it; in particular the returned fallback
list has no duplicates and shares no spec with the installed set. -/
theorem c10_theorem :
    (∀ env (s s' : EngineState), engineStep env s = .next s' →
        s.pipSpecs.Nodup → (∀ x ∈ s.pipSpecs, x ∉ s.installed) →
        s'.pipSpecs.Nodup ∧ ∀ x ∈ s'.pipSpecs, x ∉ s'.installed)
    ∧ (∀ env fuel specs,
        (installAllUpipCompatible env fuel specs).state.pipSpecs.Nodup
          ∧ ∀ x ∈ (installAllUpipCompatible env fuel specs).state.pipSpecs,
              x ∉ (installAllUpipCompatible env fuel specs).state.installed) := by
  constructor
  · intro env s s' h h1 h2
    exact step_preserves_pip_inv env s s' h h1 h2
  · intro env fuel specs
    exact engineRun_pip_inv env fuel ⟨specs, [], [], []⟩ (by simp) (by simp)

/-- C10 witness: the invariant carried through the first step of the
C6 scenario. -/
theorem c10_witness :
    (⟨["b"], ["a"], [], ["a"]⟩ : EngineState).pipSpecs.Nodup :=
  (c10_theorem.1 envC6 ⟨["a"], [], [], []⟩ ⟨["b"], ["a"], [], ["a"]⟩ rfl
    (by decide) (by decide)).1

end Minipip
